import Mathlib

/-!
Shallow embedding of the Gramodaya data-processing pipeline
(`build/setup_clean.py`): tables, whole-row deduplication, PII hashing,
department partitioning, key validation/reconciliation, and the
outer-join merge engine, together with theorems about the claims of the
specification.

Cells are nullable strings (`Option String`, `none` = null).  A plain
row is a list of cells; an attributed row (`ARow`) is an association
list from column names to cells, mirroring the named-column access of
the polars DataFrames in the source.
-/

namespace Gramodaya

/-- Cell of a table: a nullable scalar (the pipeline reads everything as text). -/
abbrev Cell := Option String

/-- Whole row as a plain tuple of cells (used for whole-row deduplication). -/
abbrev Row := List Cell

/-- Row with named columns: association list column-name to cell. -/
abbrev ARow := List (String × Cell)

/-- Reading a named cell from a row; a column absent from the row reads as null,
matching how a missing column behaves in the source's coalescing logic. -/
def getCellA (r : ARow) (c : String) : Cell :=
  match r.find? (fun e => e.1 == c) with
  | some e => e.2
  | none => none

/-- Table with an explicit ordered column list, mirroring a polars DataFrame. -/
structure DTable where
  cols : List String
  rows : List ARow
deriving DecidableEq

/-- Embedding of `DataFrame.unique(subset=None, keep="first")`: keep the first
occurrence of every distinct element, dropping later repeats.  Equality is
structural, so a null cell compares equal to a null cell. -/
def uniqueFirst {α : Type} [BEq α] : List α → List α
  | [] => []
  | a :: l => a :: uniqueFirst (l.filter (fun b => !(b == a)))
termination_by l => l.length
decreasing_by
  simp only [List.length_cons]
  exact Nat.lt_succ_of_le (List.length_filter_le _ _)

/-- Embedding of the duplicate-row report: `group_by(pl.all())`, count
occurrences, keep groups with more than one occurrence
(`setup_clean.py` lines 106-110). -/
def duplicateGroups (t : List Row) : List (Row × Nat) :=
  (uniqueFirst t).filterMap
    (fun r => if 1 < t.count r then some (r, t.count r) else none)

/-- Embedding of the null-equals-null cell comparison used by the
Row Deduplicator (polars groups nulls together in `group_by` / `unique`). -/
def cellEq : Cell → Cell → Bool
  | none, none => true
  | some a, some b => a == b
  | _, _ => false

/-- Cell-wise row comparison: every column value compares equal, null equal to null. -/
def cellwiseEqRow : Row → Row → Bool
  | [], [] => true
  | a :: r, b :: s => cellEq a b && cellwiseEqRow r s
  | _, _ => false

/-- Embedding of the inner `hash_value` of `hash_pii` (`setup_clean.py` lines
85-88): `if not x: return x` keeps null and the empty string unchanged; any
other string is replaced by its digest.  The spec treats the digest itself as
an injected pure function, so it is a parameter `sha`. -/
def hashValue (sha : String → String) : Cell → Cell
  | none => none
  | some s => if s = "" then some s else some (sha s)

/-- Embedding of `hash_pii` (`setup_clean.py` lines 82-99): a column-oriented
table; every listed column that is present in the table is mapped through
`hashValue` in place, all other columns are untouched
(`for col in columns if col in df.columns`). -/
def hashPii (sha : String → String) (t : List (String × List Cell))
    (columns : List String) : List (String × List Cell) :=
  t.map (fun col =>
    if columns.contains col.1 then (col.1, col.2.map (hashValue sha)) else col)

/-! Department registries.  `dept_abbr` as defined for the individual-benefits
half of the pipeline (`setup_clean.py` lines 144-166) and for the village half
(lines 490-516).  In the village dictionary the literal repeats the key
"Higher Education"; Python dictionary semantics keep only the last binding
(["higher_edu"]), which is what the embedding records. -/

def dept_abbr_individual : List (String × List String) :=
  [("Agriculture & FE Department", ["agri"]),
   ("Cooperation", ["cooperation"]),
   ("E & IT /Telecom", ["eit"]),
   ("Energy Department", ["energy"]),
   ("Finance Department", ["finance"]),
   ("Food Supplies & Consumer welfare Department", ["food"]),
   ("Forest & Environment", ["forest"]),
   ("Handloom, Textile & Handicraft", ["handloom"]),
   ("Health and Family Welfare", ["health"]),
   ("Higher Education", ["higheredu"]),
   ("Labour & ESI", ["labour"]),
   ("Mission Shakti", ["missionshakti"]),
   ("MSME", ["msmy"]),
   ("Odia language, Literature & Culture", ["odia"]),
   ("Panchayati Raj & Drinking Water Department", ["prdw"]),
   ("Revenue & DM Department", ["revenue"]),
   ("School & Mass Education", ["sme"]),
   ("Skill Development & Technical Education", ["skill"]),
   ("SSEPD", ["ssepd"]),
   ("ST & SC Dev Department", ["scst", "scste"]),
   ("W & CD Department", ["wcd"])]

def dept_abbr_village : List (String × List String) :=
  [("Agriculture & FE Department", ["agri"]),
   ("Cooperation", ["cooperation"]),
   ("E & IT /Telecom", ["eit"]),
   ("Energy Department", ["energy"]),
   ("Finance Department", ["finance"]),
   ("Food Supplies & Consumer welfare Department", ["food"]),
   ("Forest & Environment", ["forest"]),
   ("Handloom, Textile & Handicraft", ["handloom"]),
   ("Health and Family Welfare", ["health"]),
   ("Labour & ESI", ["labour"]),
   ("Mission Shakti", ["missionshakti"]),
   ("MSME", ["msmy"]),
   ("Odia language, Literature & Culture", ["odia"]),
   ("Panchayati Raj & Drinking Water Department", ["prdw"]),
   ("Revenue & DM Department", ["revenue"]),
   ("School & Mass Education", ["sme"]),
   ("Skill Development & Technical Education", ["skill"]),
   ("SSEPD", ["ssepd"]),
   ("ST & SC Dev Department", ["scst", "scste"]),
   ("W & CD Department", ["wcd"]),
   ("Water Resource", ["water"]),
   ("Higher Education", ["higher_edu"]),
   ("Commerce & Transport", ["transport"]),
   ("Sport & Youth Affairs", ["sport"])]

/-- Embedding of the short-code choice inside `split_and_save_by_department`
(`setup_clean.py` lines 189-191):
`"scst" if dept == "ST & SC Dev Department" else random.choice(abbr_list)`.
The call to `random.choice` is modelled by selecting the element at an
arbitrary oracle index `rand` (mod list length), so varying `rand` ranges over
every choice the random generator could make. -/
def chooseAbbr (dept : String) (abbrs : List String) (rand : Nat) : String :=
  if dept = "ST & SC Dev Department" then "scst"
  else abbrs.getD (rand % abbrs.length) ""

/-- Rows whose discriminator column is null, routed to the
missing-departments side file (`setup_clean.py` line 175). -/
def missingRows (rows : List ARow) (dcol : String) : List ARow :=
  rows.filter (fun r => (getCellA r dcol).isNone)

/-- Rows whose discriminator column equals one entity-type label
(`df.filter(pl.col(dept_name_col) == dept)`, `setup_clean.py` line 187). -/
def deptRows (rows : List ARow) (dcol : String) (label : String) : List ARow :=
  rows.filter (fun r => getCellA r dcol == some label)

/-- Dropping a column from a table (`DataFrame.drop`). -/
def dropColTable (t : DTable) (c : String) : DTable :=
  ⟨t.cols.erase c, t.rows.map (fun r => r.filter (fun e => e.1 != c))⟩

/-- Projection onto a list of columns (`DataFrame.select`). -/
def selectTable (t : DTable) (cs : List String) : DTable :=
  ⟨cs, t.rows.map (fun r => cs.map (fun c => (c, getCellA r c)))⟩

/-- Set of all registered short codes (`dept_prefixes`, `setup_clean.py` line 212). -/
def deptPrefixes (registry : List (String × List String)) : List String :=
  registry.flatMap (fun e => e.2)

/-- Shared columns: column names that do not start with any registered short
code followed by an underscore (`common_columns`, `setup_clean.py` lines 213-217). -/
def commonColumnsOf (cols : List String) (registry : List (String × List String)) :
    List String :=
  cols.filter (fun c =>
    !(deptPrefixes registry).any (fun a => c.startsWith (a ++ "_")))

/-- Embedding of `split_and_save_by_department` (`setup_clean.py` lines
169-209): for each registry entry, filter the rows whose discriminator equals
the label, drop the discriminator column, keep shared columns plus columns in
the chosen short code's namespace, deduplicate, and record the partition under
the chosen short code.  Labels with no matching row produce no partition.
Rows with a null discriminator are written to the side file (see
`missingRows`); rows with a non-null discriminator matching no label are
consumed by neither branch. -/
def splitAndSaveByDepartment (t : DTable) (dcol : String)
    (registry : List (String × List String)) (commonCols : List String)
    (rand : Nat) : List (String × DTable) :=
  registry.filterMap (fun e =>
    let dept_df := dropColTable ⟨t.cols, deptRows t.rows dcol e.1⟩ dcol
    if dept_df.rows.isEmpty then none
    else
      let chosen := chooseAbbr e.1 e.2 rand
      let pre := chosen ++ "_"
      let deptSpecificCols := dept_df.cols.filter (fun c => c.startsWith pre)
      let relevantCols := (commonCols ++ deptSpecificCols).filter
        (fun c => dept_df.cols.contains c)
      some (chosen, ⟨relevantCols, uniqueFirst (selectTable dept_df relevantCols).rows⟩))

/-- Claim C3's property as stated by the spec: some label with more than one
candidate short code can yield different chosen codes on different runs. -/
def selectionNondeterministic (registry : List (String × List String)) : Prop :=
  ∃ e ∈ registry, 1 < e.2.length ∧
    ∃ r s : Nat, chooseAbbr e.1 e.2 r ≠ chooseAbbr e.1 e.2 s

/-! Village key validation and reconciliation (claim C1).  A report row is
(department short code, village_id value, occurrence count), as built by
`check_vill_id_uniqueness` (`setup_clean.py` lines 584-624).  The report
store maps file paths to written reports, standing for `process_data_path`. -/

/-- Report rows contributed by one department file: groups of `village_id`
with more than one occurrence; a file without the column is skipped. -/
def villReportRowsFor (abbr : String) (t : DTable) : List (String × Cell × Nat) :=
  if t.cols.contains "village_id" then
    (uniqueFirst (t.rows.map (fun r => getCellA r "village_id"))).filterMap
      (fun k =>
        let occ := (t.rows.map (fun r => getCellA r "village_id")).count k
        if 1 < occ then some (abbr, k, occ) else none)
  else []

/-- Embedding of `check_vill_id_uniqueness` (`setup_clean.py` lines 584-624):
the concatenated duplicate reports of every department file. -/
def checkVillIdUniqueness (files : List (String × DTable)) :
    List (String × Cell × Nat) :=
  files.flatMap (fun p => villReportRowsFor p.1 p.2)

/-- Path the village key validator writes its report to
(`setup_clean.py` line 618). -/
def vill_report_write_path : String := "duplicate_village_id_report.csv"

/-- Path the village key reconciler reads the report from
(`setup_clean.py` line 632).  Note this is not the path the validator wrote. -/
def vill_report_read_path : String := "duplicate_vill_id_report.csv"

/-- The report store after the validator runs: the report file is written only
when at least one duplicate was found (`if duplicate_reports:` line 616). -/
def villReportStore (files : List (String × DTable)) :
    List (String × List (String × Cell × Nat)) :=
  let rpt := checkVillIdUniqueness files
  if rpt.isEmpty then [] else [(vill_report_write_path, rpt)]

/-- Reverse department mapping of `remove_duplicate_village_ids`
(`setup_clean.py` lines 646-650); later dictionary writes win, modelled by a
reversed lookup. -/
def reverseDeptMapping (registry : List (String × List String)) :
    List (String × String) :=
  registry.flatMap (fun e =>
    e.2.flatMap (fun a => [(e.1.toLower, a), (a.toLower, a)]))

/-- Python dict lookup where later insertions overwrite earlier ones. -/
def dictLookup (m : List (String × String)) (k : String) : Option String :=
  (m.reverse.find? (fun e => e.1 == k)).map (fun e => e.2)

/-- Grouping of report rows by matched short code (`dept_village_ids`,
`setup_clean.py` lines 653-665): unmatched department values are skipped. -/
def deptVillageIds (registry : List (String × List String))
    (rpt : List (String × Cell × Nat)) : List (String × List Cell) :=
  let abbrs := uniqueFirst (rpt.filterMap (fun row =>
    dictLookup (reverseDeptMapping registry) (row.1.trim.toLower)))
  abbrs.map (fun a =>
    (a, uniqueFirst (rpt.filterMap (fun row =>
      if dictLookup (reverseDeptMapping registry) (row.1.trim.toLower) = some a
      then some row.2.1 else none))))

/-- Embedding of `remove_duplicate_village_ids` (`setup_clean.py` lines
630-688).  The function looks the report up at `vill_report_read_path`; a
missing report returns no cleaned tables ("No duplicate report found").  When
a report is found, the filter in the source reads
`df.filter(~pl.col("village_id").is_in(village_id))` where `village_id` is the
leftover loop variable from the report iteration, i.e. the LAST report row's
key value, not the collected per-department set `ben_ids`; the embedding
reproduces that by comparing against the last report row's key. -/
def removeDuplicateVillageIds (registry : List (String × List String))
    (store : List (String × List (String × Cell × Nat)))
    (files : List (String × DTable)) : List (String × DTable) :=
  match (store.find? (fun e => e.1 == vill_report_read_path)).map (fun e => e.2) with
  | none => []
  | some rpt =>
      let lastKey : Cell := match rpt.getLast? with
        | some row => row.2.1
        | none => none
      (deptVillageIds registry rpt).filterMap (fun g =>
        match files.find? (fun p => p.1 == g.1) with
        | none => none
        | some p =>
            let cleanedRows := p.2.rows.filter
              (fun r => !(getCellA r "village_id" == lastKey))
            if cleanedRows.length < p.2.rows.length
            then some (g.1, ⟨p.2.cols, cleanedRows⟩) else none)

/-- Overlay of the reconciler's cleaned tables onto the original files
(`setup_clean.py` lines 692-698 write the cleaned frames back over the
department files). -/
def overlayCleaned (files cleaned : List (String × DTable)) :
    List (String × DTable) :=
  files.map (fun p =>
    match cleaned.find? (fun q => q.1 == p.1) with
    | some q => q
    | none => p)

/-- The village validate-then-reconcile stage as wired in the script:
validator writes the report store, reconciler reads from it, cleaned frames
overwrite the department files. -/
def villagePipeline (registry : List (String × List String))
    (files : List (String × DTable)) : List (String × DTable) :=
  overlayCleaned files
    (removeDuplicateVillageIds registry (villReportStore files) files)

/-- Number of rows carrying a given village_id in a named department file. -/
def keyOccurrences (files : List (String × DTable)) (abbr : String)
    (v : String) : Nat :=
  match files.find? (fun p => p.1 == abbr) with
  | none => 0
  | some p => (p.2.rows.filter (fun r => getCellA r "village_id" == some v)).length

/-! Merge engine (claims C4, C5, C8).  Rows are keyed by the value of the
unique-id column; `none` keys never match each other, as in a polars join. -/

/-- Keyed row: join-key cell paired with the row's named cells. -/
abbrev KRow := Cell × ARow

/-- Join-key matching: null keys match nothing. -/
def keyMatch : Cell → Cell → Bool
  | some a, some b => a == b
  | _, _ => false

/-- First row of a keyed table whose key matches, as an association lookup. -/
def lookupKeyed (t : List KRow) (k : Cell) : Option ARow :=
  (t.find? (fun e => keyMatch e.1 k)).map (fun e => e.2)

/-- Non-null key values of a keyed table. -/
def keyVals (t : List KRow) : List String := t.filterMap (fun e => e.1)

/-- Embedding of `pl.coalesce(a, b)` on two cells: first non-null wins. -/
def coalesceCell (a b : Cell) : Cell :=
  match a with
  | some v => some v
  | none => b

/-- Cell of an optional row (an absent side of an outer join reads as null). -/
def optCell (r : Option ARow) (c : String) : Cell :=
  match r with
  | some row => getCellA row c
  | none => none

/-- One joined row: every shared column is coalesced, accumulator side first
(`pl.coalesce(pl.col(col), pl.col(col_temp))`, `setup_clean.py` lines
411-417); the non-shared cells of both sides are carried along. -/
def joinRow (common : List String) (ra rb : Option ARow) : ARow :=
  common.map (fun c => (c, coalesceCell (optCell ra c) (optCell rb c)))
    ++ (match ra with
        | some row => row.filter (fun e => !common.contains e.1)
        | none => [])
    ++ (match rb with
        | some row => row.filter (fun e => !common.contains e.1)
        | none => [])

/-- One iteration of the merge loop (`setup_clean.py` lines 399-417): full
outer join of the accumulator with the incoming partition on the key, followed
by coalescing of every shared column.  Accumulator rows pair with every
matching incoming row (or survive alone), and unmatched incoming rows are
appended. -/
def joinBlock (common : List String) (B : List KRow) (a : KRow) : List KRow :=
  let ms := B.filter (fun b => keyMatch b.1 a.1)
  if ms.isEmpty then [(a.1, joinRow common (some a.2) none)]
  else ms.map (fun b => (a.1, joinRow common (some a.2) (some b.2)))

def joinStep (common : List String) (A B : List KRow) : List KRow :=
  A.flatMap (joinBlock common B)
    ++ (B.filter (fun b => !A.any (fun a => keyMatch a.1 b.1))).map
        (fun b => (b.1, joinRow common none (some b.2)))

/-- Fold of `joinStep` over the partitions in order, starting from the first
(`merged_df = df` then repeated joins, `setup_clean.py` lines 376-419). -/
def mergeAllKeyed (common : List String) : List (List KRow) → List KRow
  | [] => []
  | p :: rest => rest.foldl (joinStep common) p

/-- Shared columns of the merge: intersection of all partitions' column sets
minus the unique id, in canonical sorted order
(`set.intersection(...) - {unique_id}` then `sorted`, `setup_clean.py`
lines 365-368). -/
def mergeCommonCols (ps : List (String × DTable)) (uid : String) : List String :=
  match ps with
  | [] => []
  | p :: rest =>
      ((p.2.cols.dedup.filter
          (fun c => rest.all (fun q => q.2.cols.contains c) && c != uid)).mergeSort
        (fun a b => a ≤ b))

/-- Preparation of one partition for joining (`setup_clean.py` lines 380-394):
rows are keyed by the unique-id cell; shared columns keep their names,
every other column is renamed with the department prefix. -/
def prepPartition (dept : String) (t : DTable) (uid : String)
    (common : List String) : List KRow :=
  t.rows.map (fun r =>
    (getCellA r uid,
     common.map (fun c => (c, getCellA r c))
       ++ (t.cols.filter (fun c => !common.contains c && c != uid)).map
           (fun c => (dept ++ "_" ++ c, getCellA r c))))

/-- Global column-order tracker (`column_order`, `setup_clean.py` lines
371-397): starts with the unique id and the shared columns, and every
partition appends its prefixed specific columns that are not present yet. -/
def columnOrderOf (ps : List (String × DTable)) (uid : String) : List String :=
  let common := mergeCommonCols ps uid
  ps.foldl (fun order p =>
    let spec := (p.2.cols.filter (fun c => !common.contains c && c != uid)).map
      (fun c => p.1 ++ "_" ++ c)
    order ++ spec.filter (fun c => !order.contains c))
    (uid :: common)

/-- Final column selection (`setup_clean.py` line 422):
`[col for col in column_order if col in merged_df.columns]`. -/
def finalColumns (order mergedCols : List String) : List String :=
  order.filter (fun c => mergedCols.contains c)

/-- Embedding of the Python value passed as `unique_id`: `None`, a string, or
a value of any other type.  `not unique_id` is true for `None` and for the
empty string; `not isinstance(unique_id, str)` is true for the rest. -/
inductive KeyParam where
  | pynone : KeyParam
  | pystr : String → KeyParam
  | pyother : KeyParam
deriving DecidableEq

/-- The validation test of `merge_department_data` (`setup_clean.py` line 350):
`not unique_id or not isinstance(unique_id, str)`. -/
def keyParamInvalid : KeyParam → Bool
  | .pystr s => s.isEmpty
  | _ => true

/-- Embedding of `merge_department_data` (`setup_clean.py` lines 339-425):
validate the key parameter, then check every partition for the key column
while reading them (both raise before any join is performed), then compute
the common columns and fold the outer-join-coalesce step over the
partitions.  On an empty partition family the per-partition loop checks
nothing, and the next line, `set.intersection(*[])`, raises a `TypeError`
(the unbound `set.intersection` needs at least one argument); that error
path is modelled explicitly.  Errors are modelled with `Except`. -/
def mergeDepartmentData (files : List (String × DTable)) (uid : KeyParam) :
    Except String (List KRow) :=
  match uid with
  | .pystr s =>
      if s.isEmpty then
        .error "unique_id must be a non-empty string specifying the ID column name"
      else
        match files.find? (fun p => !p.2.cols.contains s) with
        | some p => .error ("Unique ID column " ++ s ++ " missing in " ++ p.1 ++ " data")
        | none =>
            if files.isEmpty then
              .error "TypeError: descriptor intersection of set object needs an argument"
            else
              .ok (mergeAllKeyed (mergeCommonCols files s)
                (files.map (fun p => prepPartition p.1 p.2 s (mergeCommonCols files s))))
  | _ => .error "unique_id must be a non-empty string specifying the ID column name"

/-- Whether the merge aborted with an error. -/
def isMergeError (e : Except String (List KRow)) : Bool :=
  match e with
  | .error _ => true
  | .ok _ => false

section UniqueFirstLemmas

variable {α : Type} [BEq α] [LawfulBEq α]

theorem uniqueFirst_nil : uniqueFirst ([] : List α) = [] := by
  simp [uniqueFirst]

theorem uniqueFirst_cons (a : α) (l : List α) :
    uniqueFirst (a :: l) = a :: uniqueFirst (l.filter (fun b => !(b == a))) := by
  simp [uniqueFirst]

theorem mem_uniqueFirst (l : List α) (a : α) : a ∈ uniqueFirst l ↔ a ∈ l := by
  induction l using uniqueFirst.induct with
  | case1 => simp [uniqueFirst]
  | case2 b l ih =>
    rw [uniqueFirst_cons]
    constructor
    · intro h
      rcases List.mem_cons.mp h with h | h
      · simp [h]
      · exact List.mem_cons.mpr (Or.inr (List.mem_filter.mp (ih.mp h)).1)
    · intro h
      rcases List.mem_cons.mp h with h | h
      · simp [h]
      · by_cases hab : a = b
        · simp [hab]
        · refine List.mem_cons.mpr (Or.inr (ih.mpr ?_))
          exact List.mem_filter.mpr ⟨h, by simp [hab]⟩

theorem uniqueFirst_sublist (l : List α) : (uniqueFirst l).Sublist l := by
  induction l using uniqueFirst.induct with
  | case1 => simp [uniqueFirst]
  | case2 b l ih =>
    rw [uniqueFirst_cons]
    exact List.Sublist.cons₂ b (ih.trans (List.filter_sublist l))

theorem uniqueFirst_nodup (l : List α) : (uniqueFirst l).Nodup := by
  induction l using uniqueFirst.induct with
  | case1 => simp [uniqueFirst]
  | case2 b l ih =>
    rw [uniqueFirst_cons]
    refine List.nodup_cons.mpr ⟨?_, ih⟩
    intro hmem
    have := (mem_uniqueFirst _ _).mp hmem
    simp [List.mem_filter] at this

theorem uniqueFirst_length_le (l : List α) : (uniqueFirst l).length ≤ l.length :=
  (uniqueFirst_sublist l).length_le

theorem count_add_length_filter_ne (l : List α) (a : α) :
    l.count a + (l.filter (fun b => !(b == a))).length = l.length := by
  rw [List.count, ← List.countP_eq_length_filter]
  have h := List.length_eq_countP_add_countP (fun b => b == a) (l := l)
  rw [h]
  congr 1
  refine List.countP_congr ?_
  intro b _
  by_cases hba : (b == a) = true <;> simp [hba]

theorem uniqueFirst_append_singleton (l : List α) (x : α) :
    uniqueFirst (l ++ [x]) = uniqueFirst l ++ if x ∈ l then [] else [x] := by
  induction l using uniqueFirst.induct with
  | case1 => simp [uniqueFirst]
  | case2 a l ih =>
    rw [List.cons_append, uniqueFirst_cons, List.filter_append, uniqueFirst_cons]
    by_cases hxa : x = a
    · subst hxa
      simp [List.filter]
    · have hfx : List.filter (fun b => !(b == a)) [x] = [x] := by
        have hb : (x == a) = false := by simpa using hxa
        simp [List.filter, hb]
      rw [hfx, ih]
      have hmem : x ∈ List.filter (fun b => !(b == a)) l ↔ x ∈ l := by
        simp [List.mem_filter, hxa]
      by_cases hxl : x ∈ l
      · simp [hmem.mpr hxl, hxl, hxa]
      · simp only [hxl, if_neg (fun h => hxl (hmem.mp h))]
        simp [hxl, hxa]

end UniqueFirstLemmas

section RowDedupLemmas

/-- Sum over the retained representatives of each one's occurrence count in
the original table recovers the original row count. -/
theorem sum_counts_uniqueFirst {α : Type} [BEq α] [LawfulBEq α] (t : List α) :
    ((uniqueFirst t).map (fun r => t.count r)).sum = t.length := by
  induction t using uniqueFirst.induct with
  | case1 => simp [uniqueFirst]
  | case2 a l ih =>
    rw [uniqueFirst_cons, List.map_cons, List.sum_cons]
    have hpt : ∀ r ∈ uniqueFirst (l.filter (fun b => !(b == a))),
        (a :: l).count r = (l.filter (fun b => !(b == a))).count r := by
      intro r hr
      have hrf := (mem_uniqueFirst _ _).mp hr
      have hra : r ≠ a := by
        have := (List.mem_filter.mp hrf).2
        simpa using this
      rw [List.count_cons_of_ne hra, List.count_filter]
      simp [hra]
    rw [List.map_congr_left hpt, ih, List.count_cons_self, List.length_cons]
    have := count_add_length_filter_ne l a
    omega

theorem map_sub_one_sum (xs : List Nat) (h : ∀ x ∈ xs, 1 ≤ x) :
    (xs.map (fun x => x - 1)).sum = xs.sum - xs.length := by
  induction xs with
  | nil => simp
  | cons x xs ih =>
    have hx : 1 ≤ x := h x (List.mem_cons_self x xs)
    have hxs : ∀ y ∈ xs, 1 ≤ y := fun y hy => h y (List.mem_cons_of_mem x hy)
    have hlen : xs.length ≤ xs.sum := by
      clear ih h hx
      induction xs with
      | nil => simp
      | cons y ys ih2 =>
        have hy : 1 ≤ y := hxs y (List.mem_cons_self y ys)
        have := ih2 (fun z hz => hxs z (List.mem_cons_of_mem y hz))
        simp only [List.length_cons, List.sum_cons]
        omega
    simp only [List.map_cons, List.sum_cons, List.length_cons]
    rw [ih hxs]
    omega

theorem dupGroups_filterMap_sum (t : List Row) (rs : List Row)
    (h : ∀ r ∈ rs, 1 ≤ t.count r) :
    ((rs.filterMap
        (fun r => if 1 < t.count r then some (r, t.count r) else none)).map
      (fun g => g.2 - 1)).sum
      = (rs.map (fun r => t.count r - 1)).sum := by
  induction rs with
  | nil => simp
  | cons r rs ih =>
    have hr : 1 ≤ t.count r := h r (List.mem_cons_self r rs)
    have hrs := ih (fun s hs => h s (List.mem_cons_of_mem r hs))
    by_cases hgt : 1 < t.count r
    · simp only [List.filterMap_cons, if_pos hgt, List.map_cons, List.sum_cons]
      rw [hrs]
    · have hone : t.count r = 1 := by omega
      simp only [List.filterMap_cons, if_neg hgt, List.map_cons, List.sum_cons]
      rw [hrs, hone]
      omega

theorem dupGroups_fst (t : List Row) (rs : List Row) :
    ((rs.filterMap
        (fun r => if 1 < t.count r then some (r, t.count r) else none)).map
      Prod.fst)
      = rs.filter (fun r => decide (1 < t.count r)) := by
  induction rs with
  | nil => simp
  | cons r rs ih =>
    rw [List.filterMap_cons, List.filter_cons]
    by_cases hgt : 1 < t.count r
    · rw [if_pos hgt, if_pos (by simpa using hgt), List.map_cons, ih]
    · rw [if_neg hgt, if_neg (by simpa using hgt), ih]

end RowDedupLemmas

/-- Claim C6: the Row Deduplicator removes `original - clean` rows, and this
count equals the sum of (occurrences - 1) over the duplicate report's groups;
the report holds exactly the distinct full-row tuples occurring more than
once, each listed once. -/
theorem rowDedup_counts (t : List Row) :
    t.length - (uniqueFirst t).length
        = ((duplicateGroups t).map (fun g => g.2 - 1)).sum
      ∧ (∀ r c, (r, c) ∈ duplicateGroups t ↔ (r ∈ t ∧ c = t.count r ∧ 1 < c))
      ∧ ((duplicateGroups t).map Prod.fst).Nodup
      ∧ (uniqueFirst t).length ≤ t.length := by
  refine ⟨?_, ?_, ?_, uniqueFirst_length_le t⟩
  · have hmem : ∀ r ∈ uniqueFirst t, 1 ≤ t.count r := by
      intro r hr
      exact List.count_pos_iff.mpr ((mem_uniqueFirst t r).mp hr)
    calc t.length - (uniqueFirst t).length
        = ((uniqueFirst t).map (fun r => t.count r)).sum - (uniqueFirst t).length := by
          rw [sum_counts_uniqueFirst t]
      _ = ((uniqueFirst t).map (fun r => t.count r - 1)).sum := by
          have h2 := map_sub_one_sum ((uniqueFirst t).map (fun r => t.count r)) (by
            intro x hx
            rcases List.mem_map.mp hx with ⟨r, hr, rfl⟩
            exact hmem r hr)
          rw [List.map_map, List.length_map] at h2
          exact h2.symm
      _ = ((duplicateGroups t).map (fun g => g.2 - 1)).sum := by
          rw [duplicateGroups]
          exact (dupGroups_filterMap_sum t _ hmem).symm
  · intro r c
    constructor
    · intro h
      rcases List.mem_filterMap.mp h with ⟨a, ha, hsome⟩
      by_cases hgt : 1 < t.count a
      · rw [if_pos hgt] at hsome
        have hpair := Option.some.inj hsome
        have hfst : a = r := congrArg Prod.fst hpair
        have hsnd : t.count a = c := congrArg Prod.snd hpair
        subst hfst
        subst hsnd
        exact ⟨(mem_uniqueFirst t a).mp ha, rfl, hgt⟩
      · rw [if_neg hgt] at hsome
        simp at hsome
    · rintro ⟨hrt, rfl, hgt⟩
      exact List.mem_filterMap.mpr
        ⟨r, (mem_uniqueFirst t r).mpr hrt, by rw [if_pos hgt]⟩
  · rw [duplicateGroups, dupGroups_fst]
    exact (uniqueFirst_nodup t).filter _

/-- Claim C7: two rows are whole-row duplicates iff every column value
compares equal with null equal to null (cell-wise comparison agrees with
structural equality); the deduplicated output keeps exactly one
representative per distinct row tuple, in insertion-order-stable fashion:
the retained prefix never changes as further rows are appended, and an
appended row is kept iff it is new.  In particular two rows identical except
for a shared null field are one duplicate group and dedupe to one row. -/
theorem rowDedup_semantics (t : List Row) :
    (∀ r s : Row, r.length = s.length → (cellwiseEqRow r s = true ↔ r = s))
      ∧ (uniqueFirst t).Nodup
      ∧ (∀ r, r ∈ uniqueFirst t ↔ r ∈ t)
      ∧ (uniqueFirst t).Sublist t
      ∧ (∀ x : Row, uniqueFirst (t ++ [x])
          = uniqueFirst t ++ if x ∈ t then [] else [x]) := by
  refine ⟨?_, uniqueFirst_nodup t, fun r => mem_uniqueFirst t r,
    uniqueFirst_sublist t, fun x => uniqueFirst_append_singleton t x⟩
  intro r
  induction r with
  | nil =>
    intro s hs
    cases s with
    | nil => simp [cellwiseEqRow]
    | cons b s => simp at hs
  | cons a r ih =>
    intro s hs
    cases s with
    | nil => simp at hs
    | cons b s =>
      simp only [List.length_cons, Nat.succ_inj] at hs
      have hcell : cellEq a b = true ↔ a = b := by
        cases a with
        | none => cases b <;> simp [cellEq]
        | some va => cases b <;> simp [cellEq]
      rw [show cellwiseEqRow (a :: r) (b :: s) = (cellEq a b && cellwiseEqRow r s)
        from rfl, Bool.and_eq_true]
      constructor
      · rintro ⟨h1, h2⟩
        rw [hcell.mp h1, (ih s hs).mp h2]
      · intro h
        cases h
        exact ⟨hcell.mpr rfl, (ih r rfl).mpr rfl⟩

/-- Witness for `rowDedup_counts` at a concrete table: two equal rows and one
distinct row give one duplicate group of size two and one removed row. -/
theorem rowDedup_counts_witness :
    ([[some "a"], [some "a"], [none]] : List Row).length
        - (uniqueFirst [[some "a"], [some "a"], [none]]).length
        = ((duplicateGroups [[some "a"], [some "a"], [none]]).map
            (fun g => g.2 - 1)).sum := by
  exact (rowDedup_counts [[some "a"], [some "a"], [none]]).1

/-- Witness for `rowDedup_semantics`: two rows identical except for a shared
null cell are recognised as duplicates and dedupe to a single row. -/
theorem rowDedup_semantics_witness :
    (cellwiseEqRow [some "a", none] [some "a", none] = true
        ↔ ([some "a", none] : Row) = [some "a", none])
      ∧ uniqueFirst [[some "a", none], [some "a", none]] = [[some "a", none]] := by
  constructor
  · exact (rowDedup_semantics []).1 [some "a", none] [some "a", none] rfl
  · have h := (rowDedup_semantics [[some "a", none]]).2.2.2.2 [some "a", none]
    rw [if_pos (by simp)] at h
    simpa [uniqueFirst_cons, uniqueFirst_nil] using h

/-- Claim C9: the PII cell-hash is a deterministic total function that is the
identity on null and on the empty string and maps every other string to its
digest; null and empty string stay distinct markers through hashing. -/
theorem hashValue_spec (sha : String → String) :
    hashValue sha none = none
      ∧ hashValue sha (some "") = some ""
      ∧ (∀ s : String, s ≠ "" → hashValue sha (some s) = some (sha s)) := by
  refine ⟨rfl, by simp [hashValue], ?_⟩
  intro s hs
  simp [hashValue, hs]

/-- Witness for `hashValue_spec` at a concrete injected digest function and
a concrete non-empty string. -/
theorem hashValue_spec_witness :
    hashValue (fun s => s ++ "#") none = none
      ∧ hashValue (fun s => s ++ "#") (some "") = some ""
      ∧ hashValue (fun s => s ++ "#") (some "ab") = some "ab#" := by
  refine ⟨(hashValue_spec (fun s => s ++ "#")).1,
    (hashValue_spec (fun s => s ++ "#")).2.1,
    (hashValue_spec (fun s => s ++ "#")).2.2 "ab" (by decide)⟩

/-- Claim C10: `hash_pii` preserves the table's column names and order and
every column's row count, leaves every column not in the PII list untouched,
and a listed column name absent from the table has no effect at all. -/
theorem hashPii_frame (sha : String → String) (t : List (String × List Cell))
    (columns : List String) :
    (hashPii sha t columns).map Prod.fst = t.map Prod.fst
      ∧ (∀ i, (t.get? i).map (fun p => p.2.length)
          = ((hashPii sha t columns).get? i).map (fun p => p.2.length))
      ∧ (∀ i p, t.get? i = some p → ¬ p.1 ∈ columns
          → (hashPii sha t columns).get? i = some p)
      ∧ (∀ c, ¬ c ∈ t.map Prod.fst
          → hashPii sha t (c :: columns) = hashPii sha t columns) := by
  refine ⟨?_, ?_, ?_, ?_⟩
  · rw [hashPii, List.map_map]
    refine List.map_congr_left ?_
    intro p _
    by_cases h : p.1 ∈ columns <;> simp [h]
  · intro i
    rw [hashPii, List.get?_map]
    cases t.get? i with
    | none => rfl
    | some p =>
      by_cases h : p.1 ∈ columns <;> simp [h]
  · intro i p hp hmem
    rw [hashPii, List.get?_map, hp]
    simp [hmem]
  · intro c hc
    rw [hashPii, hashPii]
    refine List.map_congr_left ?_
    intro p hp
    have hne : p.1 ≠ c := by
      intro h
      exact hc (h ▸ List.mem_map.mpr ⟨p, hp, rfl⟩)
    have hb : (p.1 == c) = false := by simpa using hne
    have hcc : (c :: columns).contains p.1 = columns.contains p.1 := by
      simp [List.contains_cons, hb]
      intro h
      exact absurd h hne
    rw [hcc]

/-- Witness for `hashPii_frame`: a table with one PII and one non-PII column;
the non-PII column and the shape are untouched, and an absent listed name is
skipped. -/
theorem hashPii_frame_witness :
    (hashPii (fun s => s ++ "#") [("ben_name", [some "x"]), ("dist", [some "d"])]
        ["ben_name"]).map Prod.fst = ["ben_name", "dist"]
      ∧ (hashPii (fun s => s ++ "#")
          [("ben_name", [some "x"]), ("dist", [some "d"])]
          ("aadhar_no" :: ["ben_name"]))
        = hashPii (fun s => s ++ "#")
            [("ben_name", [some "x"]), ("dist", [some "d"])] ["ben_name"] := by
  constructor
  · exact (hashPii_frame (fun s => s ++ "#")
      [("ben_name", [some "x"]), ("dist", [some "d"])] ["ben_name"]).1
  · exact (hashPii_frame (fun s => s ++ "#")
      [("ben_name", [some "x"]), ("dist", [some "d"])] ["ben_name"]).2.2.2
      "aadhar_no" (by decide)

/-- Helper: the chosen short code does not depend on the random oracle when
the candidate list has at most one element or the label is the special-cased
one. -/
theorem chooseAbbr_const (d : String) (l : List String) (r s : Nat)
    (h : l.length ≤ 1 ∨ d = "ST & SC Dev Department") :
    chooseAbbr d l r = chooseAbbr d l s := by
  by_cases hd : d = "ST & SC Dev Department"
  · simp [chooseAbbr, hd]
  · rcases h with h | h
    · rw [chooseAbbr, chooseAbbr, if_neg hd, if_neg hd]
      cases l with
      | nil => simp [List.getD]
      | cons x xs =>
        cases xs with
        | nil => simp [Nat.mod_one]
        | cons y ys => simp at h
    · exact absurd h hd

/-- Helper: in both registries, every label either has a single candidate
short code or is the special-cased "ST & SC Dev Department". -/
theorem choice_registry_fact :
    (∀ e ∈ dept_abbr_individual, e.2.length ≤ 1 ∨ e.1 = "ST & SC Dev Department")
      ∧ (∀ e ∈ dept_abbr_village, e.2.length ≤ 1 ∨ e.1 = "ST & SC Dev Department") := by
  decide

/-- Claim C3 counterexample: the short-code selection is not nondeterministic
for either registry.  The only label with more than one candidate code,
"ST & SC Dev Department", is special-cased to the fixed code "scst" before
`random.choice` is consulted, and every other label has exactly one candidate,
so `random.choice` on a singleton is forced. -/
theorem shortcode_choice_not_random :
    ¬ selectionNondeterministic dept_abbr_individual
      ∧ ¬ selectionNondeterministic dept_abbr_village := by
  constructor
  · rintro ⟨e, he, hlen, r, s, hne⟩
    exact hne (chooseAbbr_const e.1 e.2 r s (choice_registry_fact.1 e he))
  · rintro ⟨e, he, hlen, r, s, hne⟩
    exact hne (chooseAbbr_const e.1 e.2 r s (choice_registry_fact.2 e he))

/-- Claim C3 amended: for every registry entry the short code chosen to name
the partition artifact is a deterministic function of the input; two runs
with different random draws choose the same code. -/
theorem shortcode_choice_deterministic :
    (∀ e ∈ dept_abbr_individual, ∀ r s : Nat,
        chooseAbbr e.1 e.2 r = chooseAbbr e.1 e.2 s)
      ∧ (∀ e ∈ dept_abbr_village, ∀ r s : Nat,
        chooseAbbr e.1 e.2 r = chooseAbbr e.1 e.2 s) := by
  constructor
  · intro e he r s
    exact chooseAbbr_const e.1 e.2 r s (choice_registry_fact.1 e he)
  · intro e he r s
    exact chooseAbbr_const e.1 e.2 r s (choice_registry_fact.2 e he)

/-- Witness for `shortcode_choice_deterministic` at the multi-candidate label
and two different random draws. -/
theorem shortcode_choice_deterministic_witness :
    chooseAbbr "ST & SC Dev Department" ["scst", "scste"] 0
      = chooseAbbr "ST & SC Dev Department" ["scst", "scste"] 1 :=
  shortcode_choice_deterministic.1 ("ST & SC Dev Department", ["scst", "scste"])
    (by decide) 0 1

/-- Claim C2 counterexample: a row whose discriminator value is non-null but
matches no registry label is routed to no partition and not to the
missing-departments side table; the Partitioner's outputs contain nothing for
it and no count of it — it is silently discarded. -/
theorem partitioner_drops_unknown_label :
    splitAndSaveByDepartment
        ⟨["dept_name", "x"], [[("dept_name", some "Mystery"), ("x", some "1")]]⟩
        "dept_name" dept_abbr_individual
        (commonColumnsOf ["dept_name", "x"] dept_abbr_individual) 0 = []
      ∧ missingRows [[("dept_name", some "Mystery"), ("x", some "1")]] "dept_name" = []
      ∧ ([[("dept_name", some "Mystery"), ("x", some "1")]] : List ARow).length = 1
      ∧ (∀ e ∈ dept_abbr_individual, "Mystery" ≠ e.1) := by
  decide

/-- Claim C2 amended: a row with a non-null discriminator value matching no
registry label lands in neither the missing-discriminator side table nor any
label's row selection (from which every partition of
`splitAndSaveByDepartment` is built), so the Partitioner silently discards it
rather than counting or surfacing it. -/
theorem partitioner_unknown_label_unrouted (rows : List ARow) (dcol v : String)
    (r : ARow) (registry : List (String × List String))
    (hr : r ∈ rows) (hv : getCellA r dcol = some v)
    (hunk : ∀ e ∈ registry, v ≠ e.1) :
    ¬ r ∈ missingRows rows dcol
      ∧ ∀ e ∈ registry, ¬ r ∈ deptRows rows dcol e.1 := by
  constructor
  · intro hm
    have hnull := (List.mem_filter.mp hm).2
    rw [hv] at hnull
    simp at hnull
  · intro e he hm
    have heq := (List.mem_filter.mp hm).2
    rw [hv] at heq
    have : v = e.1 := by simpa using heq
    exact hunk e he this

/-- Witness for `partitioner_unknown_label_unrouted` at a concrete row and
the individual-benefits registry. -/
theorem partitioner_unknown_label_unrouted_witness :
    ¬ [("dept_name", some "Mystery")]
        ∈ missingRows [[("dept_name", some "Mystery")]] "dept_name"
      ∧ ∀ e ∈ dept_abbr_individual,
        ¬ [("dept_name", some "Mystery")]
            ∈ deptRows [[("dept_name", some "Mystery")]] "dept_name" e.1 :=
  partitioner_unknown_label_unrouted _ "dept_name" "Mystery" _
    dept_abbr_individual (by decide) (by decide) (by decide)

/-- Claim C1 (evaluation of the code at a failing input): a village partition
holding the key "V1" twice is reported by the key validator, but the
reconciler looks the report up under a different file name than the validator
wrote it to (`duplicate_vill_id_report.csv` vs
`duplicate_village_id_report.csv`), finds nothing, and cleans nothing, so
both rows with the duplicated key survive the Key Reconciler instead of zero.
(The reconciler's filter is also against the leftover scalar loop variable
rather than the collected key set, a second slip in the same function - see
`removeDuplicateVillageIds` - but the path mismatch already makes it dead
code.) -/
theorem village_reconciler_leaves_duplicates :
    vill_report_write_path ≠ vill_report_read_path
      ∧ checkVillIdUniqueness
          [("agri", DTable.mk ["village_id"]
            [[("village_id", some "V1")], [("village_id", some "V1")]])]
        = [("agri", some "V1", 2)]
      ∧ removeDuplicateVillageIds dept_abbr_village
          (villReportStore
            [("agri", DTable.mk ["village_id"]
              [[("village_id", some "V1")], [("village_id", some "V1")]])])
          [("agri", DTable.mk ["village_id"]
            [[("village_id", some "V1")], [("village_id", some "V1")]])]
        = []
      ∧ keyOccurrences
          (villagePipeline dept_abbr_village
            [("agri", DTable.mk ["village_id"]
              [[("village_id", some "V1")], [("village_id", some "V1")]])])
          "agri" "V1" = 2 := by
  have hrpt : checkVillIdUniqueness
      [("agri", DTable.mk ["village_id"]
        [[("village_id", some "V1")], [("village_id", some "V1")]])]
      = [("agri", some "V1", 2)] := by
    simp [checkVillIdUniqueness, villReportRowsFor, getCellA,
      uniqueFirst_cons, uniqueFirst_nil]
  have hstore : villReportStore
      [("agri", DTable.mk ["village_id"]
        [[("village_id", some "V1")], [("village_id", some "V1")]])]
      = [(vill_report_write_path, [("agri", some "V1", 2)])] := by
    simp [villReportStore, hrpt]
  have hrem : removeDuplicateVillageIds dept_abbr_village
      [(vill_report_write_path, [("agri", some "V1", 2)])]
      [("agri", DTable.mk ["village_id"]
        [[("village_id", some "V1")], [("village_id", some "V1")]])]
      = [] := by decide
  refine ⟨by decide, hrpt, ?_, ?_⟩
  · rw [hstore]
    exact hrem
  · simp only [villagePipeline]
    rw [hstore, hrem]
    decide

section MergeLemmas

theorem keyMatch_some_iff (x : Cell) (k : String) :
    keyMatch x (some k) = true ↔ x = some k := by
  cases x with
  | none => simp [keyMatch]
  | some a => simp [keyMatch]

theorem find?_eq_head?_filter {α : Type} (p : α → Bool) (l : List α) :
    l.find? p = (l.filter p).head? := by
  induction l with
  | nil => simp
  | cons a l ih =>
    by_cases h : p a = true
    · rw [List.find?_cons_of_pos _ h, List.filter_cons, if_pos h]
      rfl
    · rw [List.find?_cons_of_neg _ (by simpa using h), List.filter_cons, if_neg h, ih]

theorem find?_map_pair_self (cs : List String) (f : String → Cell) (c : String)
    (hc : c ∈ cs) :
    (cs.map (fun d => (d, f d))).find? (fun e => e.1 == c) = some (c, f c) := by
  induction cs with
  | nil => simp at hc
  | cons d rest ih =>
    by_cases hdc : d = c
    · subst hdc
      rw [List.map_cons, List.find?_cons_of_pos _ (by simp)]
    · rcases List.mem_cons.mp hc with h | h
      · exact absurd h.symm hdc
      · rw [List.map_cons, List.find?_cons_of_neg _ (by simp [hdc]), ih h]

theorem getCellA_joinRow (common : List String) (ra rb : Option ARow) (c : String)
    (hc : c ∈ common) :
    getCellA (joinRow common ra rb) c
      = coalesceCell (optCell ra c) (optCell rb c) := by
  rw [joinRow.eq_def, getCellA, List.append_assoc, List.find?_append,
    find?_map_pair_self common _ c hc]
  rfl

theorem joinBlock_keys (common : List String) (B : List KRow) (a : KRow) :
    ∀ e ∈ joinBlock common B a, e.1 = a.1 := by
  intro e he
  simp only [joinBlock] at he
  by_cases hms : (B.filter (fun b => keyMatch b.1 a.1)).isEmpty
  · rw [if_pos hms] at he
    rw [List.mem_singleton.mp he]
  · rw [if_neg hms] at he
    rcases List.mem_map.mp he with ⟨b, hb, rfl⟩
    rfl

theorem joinBlock_exists_key (common : List String) (B : List KRow) (a : KRow) :
    ∃ r, (a.1, r) ∈ joinBlock common B a := by
  simp only [joinBlock]
  by_cases hms : (B.filter (fun b => keyMatch b.1 a.1)).isEmpty
  · rw [if_pos hms]
    exact ⟨_, List.mem_singleton_self _⟩
  · rw [if_neg hms]
    cases hflt : B.filter (fun b => keyMatch b.1 a.1) with
    | nil => rw [hflt] at hms; simp at hms
    | cons b bs =>
      rw [List.map_cons]
      exact ⟨_, List.mem_cons_self _ _⟩

theorem some_or_eq {α : Type} (a : α) (o : Option α) : (some a).or o = some a := rfl

theorem none_or_eq {α : Type} (o : Option α) : (none : Option α).or o = o := rfl

theorem find?_cons_key_pos (kc : Cell) (r : ARow) (l : List KRow) (k2 : String)
    (h : keyMatch kc (some k2) = true) :
    ((kc, r) :: l).find? (fun e => keyMatch e.1 (some k2)) = some (kc, r) :=
  List.find?_cons_of_pos _ (by simpa using h)

theorem find?_cons_key_neg (kc : Cell) (r : ARow) (l : List KRow) (k2 : String)
    (h : ¬ keyMatch kc (some k2) = true) :
    ((kc, r) :: l).find? (fun e => keyMatch e.1 (some k2))
      = l.find? (fun e => keyMatch e.1 (some k2)) :=
  List.find?_cons_of_neg _ (by simpa using h)

theorem find?_flatMap_joinBlock (common : List String) (A B : List KRow)
    (k : String) (ra : ARow) (hA : lookupKeyed A (some k) = some ra) :
    (A.flatMap (joinBlock common B)).find? (fun e => keyMatch e.1 (some k))
      = some (some k, joinRow common (some ra) (lookupKeyed B (some k))) := by
  induction A with
  | nil => simp [lookupKeyed] at hA
  | cons a A ih =>
    obtain ⟨ak, ar⟩ := a
    rw [List.flatMap_cons, List.find?_append]
    by_cases hm : keyMatch ak (some k) = true
    · have hak : ak = some k := (keyMatch_some_iff _ _).mp hm
      subst hak
      have hra : ra = ar := by
        rw [lookupKeyed, find?_cons_key_pos _ _ _ _ hm] at hA
        simpa using hA.symm
      have hlookB : lookupKeyed B (some k)
          = (B.filter (fun e => keyMatch e.1 (some k))).head?.map (fun e => e.2) := by
        rw [lookupKeyed, find?_eq_head?_filter]
      rw [hlookB]
      cases hflt : B.filter (fun e => keyMatch e.1 (some k)) with
      | nil =>
        have hblock : joinBlock common B (some k, ar)
            = [(some k, joinRow common (some ar) none)] := by
          simp only [joinBlock]
          rw [hflt]
          rfl
        rw [hblock, find?_cons_key_pos _ _ _ _ hm, some_or_eq]
        simp [hra]
      | cons b bs =>
        have hblock : joinBlock common B (some k, ar)
            = (b :: bs).map (fun b => (some k, joinRow common (some ar) (some b.2))) := by
          simp only [joinBlock]
          rw [hflt]
          rfl
        rw [hblock, List.map_cons, find?_cons_key_pos _ _ _ _ hm, some_or_eq]
        simp [hra]
    · have hA2 : lookupKeyed A (some k) = some ra := by
        rw [lookupKeyed, find?_cons_key_neg _ _ _ _ hm] at hA
        exact hA
      have hblocknone : (joinBlock common B (ak, ar)).find?
          (fun e => keyMatch e.1 (some k)) = none := by
        rw [List.find?_eq_none]
        intro e he
        have hkey := joinBlock_keys common B (ak, ar) e he
        rw [hkey]
        simpa using hm
      rw [hblocknone, ih hA2, none_or_eq]

theorem lookupKeyed_joinStep (common : List String) (A B : List KRow)
    (k : String) (ra : ARow) (hA : lookupKeyed A (some k) = some ra) :
    lookupKeyed (joinStep common A B) (some k)
      = some (joinRow common (some ra) (lookupKeyed B (some k))) := by
  rw [joinStep, lookupKeyed, List.find?_append,
    find?_flatMap_joinBlock common A B k ra hA]
  rfl

theorem keyVals_mem (t : List KRow) (k : String) :
    k ∈ keyVals t ↔ ∃ e ∈ t, e.1 = some k := by
  simp [keyVals, List.mem_filterMap]

theorem keyVals_joinStep (common : List String) (A B : List KRow) (k : String) :
    k ∈ keyVals (joinStep common A B) ↔ k ∈ keyVals A ∨ k ∈ keyVals B := by
  rw [keyVals_mem, keyVals_mem, keyVals_mem]
  constructor
  · rintro ⟨e, he, hk⟩
    rw [joinStep] at he
    rcases List.mem_append.mp he with h | h
    · rcases List.mem_flatMap.mp h with ⟨a, ha, hin⟩
      refine Or.inl ⟨a, ha, ?_⟩
      rw [← joinBlock_keys common B a e hin]
      exact hk
    · rcases List.mem_map.mp h with ⟨b, hb, rfl⟩
      exact Or.inr ⟨b, (List.mem_filter.mp hb).1, hk⟩
  · intro h
    rcases h with ⟨a, ha, hak⟩ | ⟨b, hb, hbk⟩
    · rcases joinBlock_exists_key common B a with ⟨r, hr⟩
      refine ⟨(a.1, r), ?_, hak⟩
      rw [joinStep]
      exact List.mem_append.mpr (Or.inl (List.mem_flatMap.mpr ⟨a, ha, hr⟩))
    · by_cases hany : (A.any (fun a => keyMatch a.1 b.1)) = true
      · rcases List.any_eq_true.mp hany with ⟨a, ha, hma⟩
        have hak : a.1 = some k := by
          rw [hbk] at hma
          exact (keyMatch_some_iff _ _).mp hma
        rcases joinBlock_exists_key common B a with ⟨r, hr⟩
        refine ⟨(a.1, r), ?_, hak⟩
        rw [joinStep]
        exact List.mem_append.mpr (Or.inl (List.mem_flatMap.mpr ⟨a, ha, hr⟩))
      · refine ⟨(b.1, joinRow common none (some b.2)), ?_, hbk⟩
        rw [joinStep]
        refine List.mem_append.mpr (Or.inr ?_)
        exact List.mem_map.mpr
          ⟨b, List.mem_filter.mpr ⟨hb, by simpa using hany⟩, rfl⟩

theorem keyVals_foldl (common : List String) (l : List (List KRow)) :
    ∀ acc k, k ∈ keyVals (l.foldl (joinStep common) acc)
      ↔ k ∈ keyVals acc ∨ ∃ q ∈ l, k ∈ keyVals q := by
  induction l with
  | nil =>
    intro acc k
    simp
  | cons p l ih =>
    intro acc k
    rw [List.foldl_cons, ih (joinStep common acc p) k, keyVals_joinStep]
    constructor
    · rintro ((h | h) | ⟨q, hq, hk⟩)
      · exact Or.inl h
      · exact Or.inr ⟨p, List.mem_cons_self _ _, h⟩
      · exact Or.inr ⟨q, List.mem_cons_of_mem _ hq, hk⟩
    · rintro (h | ⟨q, hq, hk⟩)
      · exact Or.inl (Or.inl h)
      · rcases List.mem_cons.mp hq with rfl | hq2
        · exact Or.inl (Or.inr hk)
        · exact Or.inr ⟨q, hq2, hk⟩

theorem string_prefix_inj (d : String) :
    Function.Injective (fun c => d ++ "_" ++ c) := by
  intro a b h
  have hd : (d ++ "_" ++ a).data = (d ++ "_" ++ b).data := congrArg String.data h
  simp [String.data_append] at hd
  exact String.ext hd

theorem mergeCommonCols_nodup (ps : List (String × DTable)) (uid : String) :
    (mergeCommonCols ps uid).Nodup ∧ ¬ uid ∈ mergeCommonCols ps uid := by
  cases ps with
  | nil => simp [mergeCommonCols]
  | cons p rest =>
    constructor
    · exact (List.mergeSort_perm _ _).nodup_iff.mpr
        ((p.2.cols.nodup_dedup).filter _)
    · intro hmem
      have hmem2 := (List.Perm.mem_iff (List.mergeSort_perm _ _)).mp hmem
      have hpred := (List.mem_filter.mp hmem2).2
      simp at hpred

theorem extend_step_nodup (order : List String) (batch : List String)
    (horder : order.Nodup) (hbatch : batch.Nodup) :
    (order ++ batch.filter (fun c => !order.contains c)).Nodup := by
  refine List.Nodup.append horder (hbatch.filter _) ?_
  intro c hc1 hc2
  have hpred := (List.mem_filter.mp hc2).2
  simp at hpred
  exact hpred hc1

theorem foldl_extend_nodup {β : Type} (f : β → List String) :
    ∀ (qs : List β), (∀ b ∈ qs, (f b).Nodup) →
      ∀ order : List String, order.Nodup →
      (qs.foldl
        (fun order b => order ++ (f b).filter (fun c => !order.contains c))
        order).Nodup := by
  intro qs
  induction qs with
  | nil =>
    intro _ order ho
    simpa using ho
  | cons q qs ih =>
    intro hq order ho
    rw [List.foldl_cons]
    exact ih (fun b hb => hq b (List.mem_cons_of_mem _ hb)) _
      (extend_step_nodup order (f q) ho (hq q (List.mem_cons_self _ _)))

theorem columnOrderOf_nodup (ps : List (String × DTable)) (uid : String)
    (h : ∀ p ∈ ps, p.2.cols.Nodup) : (columnOrderOf ps uid).Nodup := by
  have hinit : (uid :: mergeCommonCols ps uid).Nodup := by
    rcases mergeCommonCols_nodup ps uid with ⟨h1, h2⟩
    exact List.nodup_cons.mpr ⟨h2, h1⟩
  simp only [columnOrderOf]
  exact foldl_extend_nodup
    (fun p => (p.2.cols.filter
      (fun c => !(mergeCommonCols ps uid).contains c && c != uid)).map
      (fun c => p.1 ++ "_" ++ c))
    ps
    (fun p hp => ((h p hp).filter _).map (string_prefix_inj p.1))
    _ hinit

end MergeLemmas

/-- Claim C4: first-writer-wins coalescing.  During one step of the merge
loop, for a key `k` present in the accumulator A (processed first) with row
`ra` and any incoming partition B: if A's value for a shared column `c` is a
non-null `v`, the joined row for `k` carries `v` regardless of B; if A's
value is null and B has a row for `k`, the joined row carries B's value —
later partitions only fill gaps, never overwrite. -/
theorem merge_coalesce_first_writer_wins (common : List String) (A B : List KRow)
    (k : String) (ra : ARow) (c : String)
    (hA : lookupKeyed A (some k) = some ra) (hc : c ∈ common) :
    (∀ v : String, getCellA ra c = some v →
        ∃ jr, lookupKeyed (joinStep common A B) (some k) = some jr
          ∧ getCellA jr c = some v)
      ∧ (getCellA ra c = none →
        ∀ rb, lookupKeyed B (some k) = some rb →
          ∃ jr, lookupKeyed (joinStep common A B) (some k) = some jr
            ∧ getCellA jr c = getCellA rb c) := by
  have hmaster := lookupKeyed_joinStep common A B k ra hA
  constructor
  · intro v hv
    refine ⟨_, hmaster, ?_⟩
    rw [getCellA_joinRow common _ _ c hc]
    simp [optCell, hv, coalesceCell]
  · intro hnone rb hb
    rw [hb] at hmaster
    refine ⟨_, hmaster, ?_⟩
    rw [getCellA_joinRow common _ _ c hc]
    simp [optCell, hnone, coalesceCell]

/-- Witness for `merge_coalesce_first_writer_wins`: the accumulator's
non-null district survives a join with a partition carrying a different
value for the same key. -/
theorem merge_coalesce_first_writer_wins_witness :
    ∃ jr, lookupKeyed
        (joinStep ["district"]
          [(some "k1", [("district", some "Puri")])]
          [(some "k1", [("district", some "Cuttack")])])
        (some "k1") = some jr
      ∧ getCellA jr "district" = some "Puri" :=
  (merge_coalesce_first_writer_wins ["district"]
    [(some "k1", [("district", some "Puri")])]
    [(some "k1", [("district", some "Cuttack")])]
    "k1" [("district", some "Puri")] "district"
    (by decide) (by decide)).1 "Puri" (by decide)

/-- Claim C5: for a non-empty family of partitions, a key value appears in
the merged table iff it appears in some input partition (the repeated outer
join loses no keys and invents none), and the merged table's column
selection never lists a shared column more than once: the column-order
tracker is duplicate-free, hence so is any final selection from it. -/
theorem merge_rowset_and_columns (uid : String) (ps : List (String × DTable))
    (k : String) (hne : ps ≠ []) (hnodup : ∀ p ∈ ps, p.2.cols.Nodup) :
    (k ∈ keyVals (mergeAllKeyed (mergeCommonCols ps uid)
          (ps.map (fun p => prepPartition p.1 p.2 uid (mergeCommonCols ps uid))))
        ↔ ∃ p ∈ ps, k ∈ keyVals (prepPartition p.1 p.2 uid (mergeCommonCols ps uid)))
      ∧ (columnOrderOf ps uid).Nodup
      ∧ ∀ mergedCols : List String,
          (finalColumns (columnOrderOf ps uid) mergedCols).Nodup := by
  refine ⟨?_, columnOrderOf_nodup ps uid hnodup,
    fun mergedCols => (columnOrderOf_nodup ps uid hnodup).filter _⟩
  cases ps with
  | nil => exact absurd rfl hne
  | cons p rest =>
    rw [List.map_cons]
    simp only [mergeAllKeyed]
    rw [keyVals_foldl]
    constructor
    · rintro (h | ⟨q, hq, hk⟩)
      · exact ⟨p, List.mem_cons_self _ _, h⟩
      · rcases List.mem_map.mp hq with ⟨p2, hp2, rfl⟩
        exact ⟨p2, List.mem_cons_of_mem _ hp2, hk⟩
    · rintro ⟨q, hq, hk⟩
      rcases List.mem_cons.mp hq with rfl | hq2
      · exact Or.inl hk
      · exact Or.inr ⟨_, List.mem_map.mpr ⟨q, hq2, rfl⟩, hk⟩

/-- Witness for `merge_rowset_and_columns` at a one-partition family. -/
theorem merge_rowset_and_columns_witness :
    (columnOrderOf [("agri", DTable.mk ["ben_id", "district"]
        [[("ben_id", some "b1"), ("district", some "Puri")]])] "ben_id").Nodup :=
  (merge_rowset_and_columns "ben_id"
    [("agri", DTable.mk ["ben_id", "district"]
      [[("ben_id", some "b1"), ("district", some "Puri")]])]
    "b1" (by decide) (by decide)).2.1

/-- Claim C8 counterexample: on the empty partition family with a valid
string key parameter, the Merge Engine aborts (in the source, with a
`TypeError` raised by `set.intersection(*[])` when the list comprehension is
empty) although the key parameter is set and a string and no partition lacks
the key column — so "raises iff unset/non-string or some partition missing
the key column" is false as stated. -/
theorem merge_error_on_empty_family :
    isMergeError (mergeDepartmentData [] (KeyParam.pystr "ben_id")) = true
      ∧ keyParamInvalid (KeyParam.pystr "ben_id") = false
      ∧ ¬ (∃ s, KeyParam.pystr "ben_id" = KeyParam.pystr s
            ∧ ∃ p ∈ ([] : List (String × DTable)), ¬ s ∈ p.2.cols) := by
  refine ⟨by decide, by decide, ?_⟩
  rintro ⟨s, _, p, hp, _⟩
  exact absurd hp (List.not_mem_nil p)

/-- Claim C8 amended: the Merge Engine aborts with an error iff the
key-column parameter is unset (None or the falsy empty string) or not a
string, or some input partition lacks the key column, or the partition
family is empty (where the common-column intersection `set.intersection(*[])`
raises a TypeError); by construction every error is raised in the
validation/intersection phase, before any join is computed (the `Except.ok`
payload is built only after all three checks pass). -/
theorem merge_fatal_iff_amended (files : List (String × DTable)) (uid : KeyParam) :
    isMergeError (mergeDepartmentData files uid) = true
      ↔ (keyParamInvalid uid = true
          ∨ (∃ s, uid = KeyParam.pystr s ∧ ∃ p ∈ files, ¬ s ∈ p.2.cols)
          ∨ files = []) := by
  cases uid with
  | pynone => simp [mergeDepartmentData, isMergeError, keyParamInvalid]
  | pyother => simp [mergeDepartmentData, isMergeError, keyParamInvalid]
  | pystr s =>
    by_cases hs : s.isEmpty = true
    · simp [mergeDepartmentData, hs, isMergeError, keyParamInvalid]
    · cases hfind : files.find? (fun p => !p.2.cols.contains s) with
      | some p =>
        have hp := List.find?_some hfind
        have hpm := List.mem_of_find?_eq_some hfind
        have hcol : ¬ s ∈ p.2.cols := by simpa using hp
        simp only [mergeDepartmentData, if_neg hs, hfind, isMergeError]
        constructor
        · intro _
          exact Or.inr (Or.inl ⟨s, rfl, p, hpm, hcol⟩)
        · intro _
          trivial
      | none =>
        have hall := List.find?_eq_none.mp hfind
        by_cases hemp : files.isEmpty = true
        · have hfe : files = [] := by
            cases files with
            | nil => rfl
            | cons a l => simp at hemp
          simp only [mergeDepartmentData, if_neg hs, hfind, if_pos hemp, isMergeError]
          constructor
          · intro _
            exact Or.inr (Or.inr hfe)
          · intro _
            trivial
        · have hfe : files ≠ [] := by
            intro h
            rw [h] at hemp
            simp at hemp
          simp only [mergeDepartmentData, if_neg hs, hfind, if_neg hemp, isMergeError]
          constructor
          · intro h
            simp at h
          · rintro (h | ⟨s2, hseq, p, hpm, hcol⟩ | h)
            · exact absurd h hs
            · cases hseq
              have hnp := hall p hpm
              simp at hnp
              exact absurd hnp hcol
            · exact absurd h hfe

/-- Witness for `merge_fatal_iff_amended`: a partition without the key
column makes the merge abort. -/
theorem merge_fatal_iff_amended_witness :
    isMergeError (mergeDepartmentData
        [("agri", DTable.mk ["x"] [])] (KeyParam.pystr "ben_id")) = true :=
  (merge_fatal_iff_amended [("agri", DTable.mk ["x"] [])]
    (KeyParam.pystr "ben_id")).mpr
    (Or.inr (Or.inl ⟨"ben_id", rfl, ("agri", DTable.mk ["x"] []),
      by decide, by decide⟩))

end Gramodaya
